import Mathlib

/-!
Verification of the dependency-graph utility
(src/utils/dependency_graph/src/lib.rs).

Shallow embedding conventions:

* A node handle (in Rust an `Arc<RwLock<Node<T>>>` cloned out of the graph's
  registry) is modelled as the node's index in the registry list
  `DepGraph.nodes`.  `get_or_add_node` only ever hands out clones of registry
  entries, and distinct registry entries are distinct allocations, so Rust's
  `Arc::ptr_eq` on handles is exactly equality of indices.
* The registry holds a strong reference to every node and the library has no
  removal API, so every `Weak` back-reference stored in a `parents` list
  upgrades successfully; `parents` entries are therefore plain indices.
* Locks: the sequential semantics modelled here is the one where no thread has
  panicked, so every `read()`/`write()` succeeds and the
  `map_err(|_| AddNodeError::RwLockPanic)` branches are dead.  (The poisoned
  case of `fetch_existing`, which the source handles with `.expect(..)`, i.e.
  a panic, is modelled separately below with an explicit lock state.)
* The Rust error variants carry `value.to_string()` (via `Display`); the
  rendering is inessential, so the embedded variants carry the value itself.
* `verify_if_exists_in_parents` recurses through the `parents` lists with no
  visited set and no depth bound, so on a graph whose parents-relation has a
  cycle it need not terminate.  The embedding makes this explicit with a fuel
  parameter: a `none` result means the Rust call does not terminate.  The
  top-level `add_edge` runs it with fuel `nodes.length + 1`, which exceeds the
  length of every parents-path in an acyclic registry, so on the acyclic
  states actually reachable through the API the fuelled function returns
  `some` of exactly the Rust result.
* The parallel iterators (`par_iter().find_first`, `par_iter().try_for_each`)
  are modelled by their sequential left-to-right counterparts: `find_first`
  is specified to return the leftmost match, and the only effect of the
  parallel `try_for_each` is which `CyclicRelation` payload is reported,
  which no claim inspects.
-/

section DependencyGraphModel

variable {α : Type} [DecidableEq α] [Inhabited α]

/-- Rust `Node<T>`: a value plus the two adjacency lists.  `childs` holds
strong references (indices), `parents` holds weak back-references (indices,
always upgradable; see the header comment). -/
structure Node (α : Type) where
  value : α
  childs : List Nat
  parents : List Nat
deriving DecidableEq

instance : Inhabited (Node α) := ⟨{ value := default, childs := [], parents := [] }⟩

/-- Rust `DepGraph<T>`: the registry of all nodes, in insertion order. -/
structure DepGraph (α : Type) where
  nodes : List (Node α)
deriving DecidableEq

/-- Rust `AddNodeError`.  The `String` payloads of the source (produced with
`Display`) are replaced by the displayed value itself. -/
inductive AddNodeError (α : Type) where
  | CyclicRelation (value : α)
  | SameNode (value : α)
  | RwLockPanic
deriving DecidableEq

/-- Dereference a node handle: the registry entry at index `i`.  Out-of-range
indices never arise for handles obtained from the graph itself. -/
def nodeAt (g : DepGraph α) (i : Nat) : Node α :=
  g.nodes.getD i default

/-- Rust `fetch_existing`'s scan, `par_iter().find_first(..)` on the registry:
index of the first node whose value equals the probe. -/
def findValueIdx (value : α) : List (Node α) → Option Nat
  | [] => none
  | n :: rest =>
    if n.value = value then some 0
    else (findValueIdx value rest).map (· + 1)

/-- Rust `DepGraph::fetch_existing` (with unpoisoned locks it always returns
`Ok`, so the `Result` wrapper is dropped). -/
def fetchExisting (g : DepGraph α) (value : α) : Option Nat :=
  findValueIdx value g.nodes

/-- Rust `DepGraph::get_or_add_node`: return the existing node with this value
or register a fresh node with empty adjacency lists.  The source's return type
is `Result<_, AddNodeError>` but no code path of `fetch_existing` produces an
`Err`, so the embedding returns the handle and the updated graph directly. -/
def getOrAddNode (g : DepGraph α) (value : α) : Nat × DepGraph α :=
  match fetchExisting g value with
  | some i => (i, g)
  | none => (g.nodes.length, ⟨g.nodes ++ [{ value := value, childs := [], parents := [] }]⟩)

/-- Sequential short-circuiting of Rust `try_for_each`: first non-`ok` result
wins, an empty list yields `ok`.  The element `none` stands for a recursive
call that does not terminate. -/
def seqTry {E : Type} : List (Option (Except E Unit)) → Option (Except E Unit)
  | [] => some (Except.ok ())
  | r :: rest =>
    match r with
    | none => none
    | some (Except.error e) => some (Except.error e)
    | some (Except.ok _) => seqTry rest

/-- Rust `verify_if_exists_in_parents`, with explicit fuel (see header).
Walks upward from `parentRef` through `parents` back-references; an ancestor
reference-identical to `childRef` (index equality, modelling `Arc::ptr_eq`)
is reported as `CyclicRelation` carrying that ancestor's value. -/
def verifyIfExistsInParents (g : DepGraph α) : Nat → Nat → Nat → Option (Except (AddNodeError α) Unit)
  | 0, _, _ => none
  | Nat.succ fuel, parentRef, childRef =>
    if parentRef = childRef then
      some (Except.error (AddNodeError.CyclicRelation (nodeAt g parentRef).value))
    else
      seqTry ((nodeAt g parentRef).parents.map
        (fun p => verifyIfExistsInParents g fuel p childRef))

/-- The mutation performed by a successful `add_edge`: push `childRef` onto the
parent's `childs`, then a weak reference to `parentRef` onto the child's
`parents` (both pushes happen under the write locks taken in `add_edge`). -/
def pushEdge (g : DepGraph α) (parentRef childRef : Nat) : DepGraph α :=
  let g1 : DepGraph α :=
    ⟨g.nodes.set parentRef
      { nodeAt g parentRef with childs := (nodeAt g parentRef).childs ++ [childRef] }⟩
  ⟨g1.nodes.set childRef
    { nodeAt g1 childRef with parents := (nodeAt g1 childRef).parents ++ [parentRef] }⟩

/-- The ancestry-check phase of `add_edge` (line 155 of the source): it takes
only read locks and releases them all before `add_edge` acquires the write
locks, so no lock is held between this phase and `addEdgeApply`. -/
def addEdgeCheck (g : DepGraph α) (parentRef childRef : Nat) : Option (Except (AddNodeError α) Unit) :=
  verifyIfExistsInParents g (g.nodes.length + 1) parentRef childRef

/-- The write-locked phase of `add_edge`: the value-equality check producing
`SameNode`, then the two pushes. -/
def addEdgeApply (g : DepGraph α) (parentRef childRef : Nat) :
    Except (AddNodeError α) Unit × DepGraph α :=
  if (nodeAt g parentRef).value = (nodeAt g childRef).value then
    (Except.error (AddNodeError.SameNode (nodeAt g parentRef).value), g)
  else
    (Except.ok (), pushEdge g parentRef childRef)

/-- Rust `DepGraph::add_edge`: ancestry check, then the write-locked value
check and mutation.  `none` means the ancestry walk does not terminate (never
the case on graphs reachable through the API). -/
def addEdge (g : DepGraph α) (parentRef childRef : Nat) :
    Option (Except (AddNodeError α) Unit × DepGraph α) :=
  match addEdgeCheck g parentRef childRef with
  | none => none
  | some (Except.error e) => some (Except.error e, g)
  | some (Except.ok _) => some (addEdgeApply g parentRef childRef)

/-- One child-edge step: `j` occurs in `i`'s `childs` list. -/
def childStep (g : DepGraph α) (i j : Nat) : Prop :=
  j ∈ (nodeAt g i).childs

/-- One parent-link step: `j` occurs in `i`'s `parents` list. -/
def parentStep (g : DepGraph α) (i j : Nat) : Prop :=
  j ∈ (nodeAt g i).parents

instance (g : DepGraph α) (i j : Nat) : Decidable (childStep g i j) := by
  unfold childStep; infer_instance

instance (g : DepGraph α) (i j : Nat) : Decidable (parentStep g i j) := by
  unfold parentStep; infer_instance

/-- The values stored in the registry, in registry order. -/
def valuesOf (g : DepGraph α) : List α :=
  g.nodes.map Node.value

/-- Well-formedness of a graph state: every state reachable through the public
API (`get_or_add_node` / `add_edge` on handles of the same graph) satisfies
this, as proved below (`wf_execOps`). -/
structure WF (g : DepGraph α) : Prop where
  boundsChild : ∀ i j, childStep g i j → j < g.nodes.length
  boundsParent : ∀ i j, parentStep g i j → j < g.nodes.length
  conv : ∀ i j, parentStep g i j ↔ childStep g j i
  acyc : ∀ i, ¬ Relation.TransGen (childStep g) i i
  valuesNodup : (valuesOf g).Nodup

/-- A call against the public interface.  An `addEdge` call carries the two
handles; handles obtained from the same graph are registry indices, so the
in-range guard in `applyOp` is exactly the spec's caller contract that the
handles were obtained from this graph. -/
inductive Op (α : Type) where
  | getOrAdd (value : α)
  | addEdge (parentRef childRef : Nat)

/-- Effect of one API call on the graph state (failed calls leave the state
unchanged, matching the source's early returns). -/
def applyOp (g : DepGraph α) : Op α → DepGraph α
  | Op.getOrAdd v => (getOrAddNode g v).2
  | Op.addEdge p c =>
    if p < g.nodes.length ∧ c < g.nodes.length then
      match addEdge g p c with
      | some (_, g') => g'
      | none => g
    else g

/-- Run a sequence of API calls from the empty graph (`DepGraph::new`). -/
def execOps (ops : List (Op α)) : DepGraph α :=
  ops.foldl applyOp ⟨[]⟩

end DependencyGraphModel

/-! Concrete states of the mutual-cycle race: two fresh nodes, and the two
write-locked mutation phases applied one after the other, as happens when the
interleaving runs both ancestry checks before either write section (no lock is
held between a call's check phase and its write phase, so this interleaving is
permitted by the source's locking). -/

/-- Two fresh nodes with no edges, obtained through the API. -/
def raceStart : DepGraph Nat :=
  execOps [Op.getOrAdd 1, Op.getOrAdd 2]

/-- State after the write phase of add_edge(A, B). -/
def raceMid : DepGraph Nat :=
  (addEdgeApply raceStart 0 1).2

/-- State after the write phase of add_edge(B, A) runs on `raceMid`. -/
def raceFinal : DepGraph Nat :=
  (addEdgeApply raceMid 1 0).2

deriving instance DecidableEq for Except

/-! Lock-aware model of `fetch_existing`, used to settle the claim about
poisoned read locks.  In the source the registry scan reads each node with
`node_ref.read().expect("Couldn't unwrap the value in fetch_existing")`:
a poisoned lock makes the thread panic instead of producing the
`AddNodeError::RwLockPanic` value (which `fetch_existing` never constructs,
despite its `Result<_, AddNodeError>` return type). -/

section LockModel

variable {α : Type} [DecidableEq α]

/-- State of one node's `RwLock`. -/
inductive LockState where
  | ok
  | poisoned
deriving DecidableEq

/-- Outcome of a computation that may panic instead of returning.  The sole
panic site modelled here is the `.expect(..)` in `fetch_existing`, whose
message is the string "Couldn't unwrap the value in fetch_existing". -/
inductive PanicOr (β : Type) where
  | panicked
  | ret (b : β)
deriving DecidableEq

/-- The registry scan of `fetch_existing` with explicit lock states: node `i`
is read under `locks i`; a poisoned lock panics (the `.expect` call), an
unpoisoned one compares the stored value with the probe. -/
def fetchExistingLocksAux (locks : Nat → LockState) (value : α) :
    List (Node α) → Nat → PanicOr (Except (AddNodeError α) (Option Nat))
  | [], _ => PanicOr.ret (Except.ok none)
  | n :: rest, i =>
    match locks i with
    | LockState.poisoned => PanicOr.panicked
    | LockState.ok =>
      if n.value = value then PanicOr.ret (Except.ok (some i))
      else fetchExistingLocksAux locks value rest (i + 1)

/-- Rust `fetch_existing` with explicit lock states. -/
def fetchExistingLocks (g : DepGraph α) (locks : Nat → LockState) (value : α) :
    PanicOr (Except (AddNodeError α) (Option Nat)) :=
  fetchExistingLocksAux locks value g.nodes 0

end LockModel

section SanityChecks

example : (getOrAddNode (⟨[]⟩ : DepGraph Nat) 7).1 = 0 := by decide

example :
    addEdge ((getOrAddNode (⟨[]⟩ : DepGraph Nat) 7).2) 0 0 =
      some (Except.error (AddNodeError.CyclicRelation 7), (getOrAddNode (⟨[]⟩ : DepGraph Nat) 7).2) := by
  decide

example :
    (execOps [Op.getOrAdd 1, Op.getOrAdd 2, Op.addEdge 0 1] : DepGraph Nat) =
      ⟨[⟨1, [1], []⟩, ⟨2, [], [0]⟩]⟩ := by decide

example :
    addEdge (⟨[⟨1, [1], []⟩, ⟨2, [2], [0]⟩, ⟨3, [], [1]⟩]⟩ : DepGraph Nat) 2 0 =
      some (Except.error (AddNodeError.CyclicRelation 1), ⟨[⟨1, [1], []⟩, ⟨2, [2], [0]⟩, ⟨3, [], [1]⟩]⟩) := by
  decide

end SanityChecks

/-! List access helpers used to reason about registry updates. -/

section ListHelpers

variable {β : Type}

theorem getD_set_self : ∀ (l : List β) (i : Nat) (a d : β), i < l.length →
    (l.set i a).getD i d = a
  | [], i, _, _, h => absurd h (by simp)
  | _ :: _, 0, _, _, _ => rfl
  | _ :: t, i + 1, a, d, h => getD_set_self t i a d (by simpa using h)

theorem getD_set_ne : ∀ (l : List β) (i j : Nat) (a d : β), i ≠ j →
    (l.set i a).getD j d = l.getD j d
  | [], _, _, _, _, _ => rfl
  | _ :: _, 0, 0, _, _, hne => absurd rfl hne
  | _ :: _, 0, _ + 1, _, _, _ => rfl
  | _ :: _, _ + 1, 0, _, _, _ => rfl
  | _ :: t, i + 1, j + 1, a, d, hne =>
    getD_set_ne t i j a d (fun h => hne (by omega))

theorem getD_append_left : ∀ (l l' : List β) (i : Nat) (d : β), i < l.length →
    (l ++ l').getD i d = l.getD i d
  | [], _, _, _, h => absurd h (by simp)
  | _ :: _, _, 0, _, _ => rfl
  | _ :: t, l', i + 1, d, h => getD_append_left t l' i d (by simpa using h)

theorem getD_append_length : ∀ (l : List β) (x d : β),
    (l ++ [x]).getD l.length d = x
  | [], _, _ => rfl
  | _ :: t, x, d => getD_append_length t x d

theorem getD_ge_length : ∀ (l : List β) (i : Nat) (d : β), l.length ≤ i →
    l.getD i d = d
  | [], _, _, _ => by cases ‹Nat› <;> rfl
  | _ :: _, 0, _, h => absurd h (by simp)
  | _ :: t, i + 1, d, h => getD_ge_length t i d (by simpa using h)

end ListHelpers

/-! Behaviour of the short-circuiting loop and of the registry scan. -/

section ScanLemmas

variable {α : Type} [DecidableEq α] {E : Type}

theorem seqTry_eq_ok_iff (l : List (Option (Except E Unit))) :
    seqTry l = some (Except.ok ()) ↔ ∀ r ∈ l, r = some (Except.ok ()) := by
  induction l with
  | nil => simp [seqTry]
  | cons r rest ih =>
    cases r with
    | none => simp [seqTry]
    | some x =>
      cases x with
      | error e => simp [seqTry]
      | ok u => cases u; simp [seqTry, ih]

theorem seqTry_eq_error (l : List (Option (Except E Unit))) (e : E) :
    seqTry l = some (Except.error e) → ∃ r ∈ l, r = some (Except.error e) := by
  induction l with
  | nil => intro h; simp [seqTry] at h
  | cons r rest ih =>
    cases r with
    | none => intro h; simp [seqTry] at h
    | some x =>
      cases x with
      | error e' =>
        intro h
        simp only [seqTry] at h
        exact ⟨some (Except.error e'), by simp, by simpa using h⟩
      | ok u =>
        cases u
        intro h
        obtain ⟨r, hr, hre⟩ := ih (by simpa [seqTry] using h)
        exact ⟨r, by simp [hr], hre⟩

theorem seqTry_eq_none (l : List (Option (Except E Unit))) :
    seqTry l = none → ∃ r ∈ l, r = none := by
  induction l with
  | nil => intro h; simp [seqTry] at h
  | cons r rest ih =>
    cases r with
    | none => intro _; exact ⟨none, by simp, rfl⟩
    | some x =>
      cases x with
      | error e => intro h; simp [seqTry] at h
      | ok u =>
        cases u
        intro h
        obtain ⟨r, hr, hre⟩ := ih (by simpa [seqTry] using h)
        exact ⟨r, by simp [hr], hre⟩

theorem findValueIdx_eq_none_iff (v : α) (l : List (Node α)) :
    findValueIdx v l = none ↔ ∀ n ∈ l, n.value ≠ v := by
  induction l with
  | nil => simp [findValueIdx]
  | cons n rest ih =>
    by_cases h : n.value = v
    · simp [findValueIdx, h]
    · simp [findValueIdx, h, ih]

theorem findValueIdx_append_of_none (v : α) (l : List (Node α)) (n : Node α) :
    findValueIdx v l = none →
    findValueIdx v (l ++ [n]) = if n.value = v then some l.length else none := by
  induction l with
  | nil => intro _; simp [findValueIdx]
  | cons m rest ih =>
    intro h
    by_cases hm : m.value = v
    · simp [findValueIdx, hm] at h
    · simp only [findValueIdx, hm, if_false] at h
      have h' : findValueIdx v rest = none := by
        cases hfv : findValueIdx v rest with
        | none => rfl
        | some k => rw [hfv] at h; simp at h
      simp only [List.cons_append, findValueIdx, hm, if_false, List.append_eq]
      rw [ih h']
      by_cases hn : n.value = v <;> simp [hn]

end ScanLemmas

/-! How registry updates act on individual nodes and on the step relations. -/

section UpdateLemmas

variable {α : Type} [Inhabited α]

theorem default_node_childs : (default : Node α).childs = [] := rfl

theorem default_node_parents : (default : Node α).parents = [] := rfl

theorem nodeAt_default (g : DepGraph α) (i : Nat) (h : g.nodes.length ≤ i) :
    nodeAt g i = default :=
  getD_ge_length _ _ _ h

theorem length_pushEdge (g : DepGraph α) (p c : Nat) :
    (pushEdge g p c).nodes.length = g.nodes.length := by
  simp [pushEdge]

theorem pushEdge_nodes (g : DepGraph α) {p c : Nat} (hne : p ≠ c) :
    (pushEdge g p c).nodes =
      (g.nodes.set p { nodeAt g p with childs := (nodeAt g p).childs ++ [c] }).set c
        { nodeAt g c with parents := (nodeAt g c).parents ++ [p] } := by
  have hmid :
      nodeAt (⟨g.nodes.set p { nodeAt g p with childs := (nodeAt g p).childs ++ [c] }⟩ :
        DepGraph α) c = nodeAt g c := by
    show (g.nodes.set p _).getD c default = _
    exact getD_set_ne _ _ _ _ _ hne
  simp only [pushEdge]
  rw [hmid]

theorem nodeAt_pushEdge_parent (g : DepGraph α) {p c : Nat} (hp : p < g.nodes.length)
    (hne : p ≠ c) :
    nodeAt (pushEdge g p c) p = { nodeAt g p with childs := (nodeAt g p).childs ++ [c] } := by
  show (pushEdge g p c).nodes.getD p default = _
  rw [pushEdge_nodes g hne, getD_set_ne _ _ _ _ _ (Ne.symm hne), getD_set_self _ _ _ _ hp]

theorem nodeAt_pushEdge_child (g : DepGraph α) {p c : Nat} (hc : c < g.nodes.length)
    (hne : p ≠ c) :
    nodeAt (pushEdge g p c) c = { nodeAt g c with parents := (nodeAt g c).parents ++ [p] } := by
  show (pushEdge g p c).nodes.getD c default = _
  rw [pushEdge_nodes g hne, getD_set_self _ _ _ _ (by simpa using hc)]

theorem nodeAt_pushEdge_other (g : DepGraph α) {p c i : Nat} (hne : p ≠ c)
    (hip : i ≠ p) (hic : i ≠ c) :
    nodeAt (pushEdge g p c) i = nodeAt g i := by
  show (pushEdge g p c).nodes.getD i default = _
  rw [pushEdge_nodes g hne, getD_set_ne _ _ _ _ _ (Ne.symm hic), getD_set_ne _ _ _ _ _ (Ne.symm hip)]
  rfl

theorem childStep_pushEdge_iff (g : DepGraph α) {p c : Nat} (hp : p < g.nodes.length)
    (hne : p ≠ c) (i j : Nat) :
    childStep (pushEdge g p c) i j ↔ childStep g i j ∨ (i = p ∧ j = c) := by
  simp only [childStep]
  by_cases hip : i = p
  · subst hip
    rw [nodeAt_pushEdge_parent g hp hne]
    simp
  · by_cases hic : i = c
    · subst hic
      by_cases hc : i < g.nodes.length
      · rw [nodeAt_pushEdge_child g hc hne]
        simp [hip]
      · rw [nodeAt_default (pushEdge g p i) i (by rw [length_pushEdge]; omega),
          nodeAt_default g i (by omega)]
        simp [hip]
    · rw [nodeAt_pushEdge_other g hne hip hic]
      simp [hip, hic]

theorem parentStep_pushEdge_iff (g : DepGraph α) {p c : Nat} (hc : c < g.nodes.length)
    (hne : p ≠ c) (i j : Nat) :
    parentStep (pushEdge g p c) i j ↔ parentStep g i j ∨ (i = c ∧ j = p) := by
  simp only [parentStep]
  by_cases hic : i = c
  · subst hic
    rw [nodeAt_pushEdge_child g hc hne]
    simp
  · by_cases hip : i = p
    · subst hip
      by_cases hp : i < g.nodes.length
      · rw [nodeAt_pushEdge_parent g hp hne]
        simp [hic]
      · rw [nodeAt_default (pushEdge g i c) i (by rw [length_pushEdge]; omega),
          nodeAt_default g i (by omega)]
        simp [hic]
    · rw [nodeAt_pushEdge_other g hne hip hic]
      simp [hic]

theorem nodeAt_append_lt (g : DepGraph α) (x : Node α) {i : Nat} (hi : i < g.nodes.length) :
    nodeAt (⟨g.nodes ++ [x]⟩ : DepGraph α) i = nodeAt g i :=
  getD_append_left _ _ _ _ hi

theorem nodeAt_append_self (g : DepGraph α) (x : Node α) :
    nodeAt (⟨g.nodes ++ [x]⟩ : DepGraph α) g.nodes.length = x :=
  getD_append_length _ _ _

theorem nodeAt_append_gt (g : DepGraph α) (x : Node α) {i : Nat} (hi : g.nodes.length < i) :
    nodeAt (⟨g.nodes ++ [x]⟩ : DepGraph α) i = default :=
  getD_ge_length _ _ _ (by simp; omega)

theorem childStep_append_iff (g : DepGraph α) (x : Node α) (hx : x.childs = []) (i j : Nat) :
    childStep (⟨g.nodes ++ [x]⟩ : DepGraph α) i j ↔ childStep g i j := by
  simp only [childStep]
  rcases lt_trichotomy i g.nodes.length with hi | hi | hi
  · rw [nodeAt_append_lt g x hi]
  · subst hi
    rw [nodeAt_append_self g x, hx,
      nodeAt_default g g.nodes.length (le_refl _), default_node_childs]
  · rw [nodeAt_append_gt g x hi, nodeAt_default g i (by omega)]

theorem parentStep_append_iff (g : DepGraph α) (x : Node α) (hx : x.parents = []) (i j : Nat) :
    parentStep (⟨g.nodes ++ [x]⟩ : DepGraph α) i j ↔ parentStep g i j := by
  simp only [parentStep]
  rcases lt_trichotomy i g.nodes.length with hi | hi | hi
  · rw [nodeAt_append_lt g x hi]
  · subst hi
    rw [nodeAt_append_self g x, hx,
      nodeAt_default g g.nodes.length (le_refl _), default_node_parents]
  · rw [nodeAt_append_gt g x hi, nodeAt_default g i (by omega)]

end UpdateLemmas

/-! Transport of reachability along pointwise-equivalent step relations. -/

section RelationTransport

theorem transGen_congr {β : Type} {r s : β → β → Prop} (h : ∀ a b, r a b ↔ s a b) (a b : β) :
    Relation.TransGen r a b ↔ Relation.TransGen s a b :=
  ⟨Relation.TransGen.mono (fun x y => (h x y).mp),
   Relation.TransGen.mono (fun x y => (h x y).mpr)⟩

theorem reflTransGen_congr {β : Type} {r s : β → β → Prop} (h : ∀ a b, r a b ↔ s a b) (a b : β) :
    Relation.ReflTransGen r a b ↔ Relation.ReflTransGen s a b :=
  ⟨Relation.ReflTransGen.mono (fun x y => (h x y).mp),
   Relation.ReflTransGen.mono (fun x y => (h x y).mpr)⟩

end RelationTransport

/-! Soundness, completeness and termination of the fuelled ancestry walk. -/

section VerifyLemmas

variable {α : Type} [Inhabited α]

theorem verify_error_sound (g : DepGraph α) :
    ∀ (fuel p c : Nat) (e : AddNodeError α),
      verifyIfExistsInParents g fuel p c = some (Except.error e) →
      (∃ v, e = AddNodeError.CyclicRelation v) ∧ Relation.ReflTransGen (parentStep g) p c := by
  intro fuel
  induction fuel with
  | zero => intro p c e h; simp [verifyIfExistsInParents] at h
  | succ f ih =>
    intro p c e h
    by_cases hpc : p = c
    · subst hpc
      have hval : verifyIfExistsInParents g (f + 1) p p =
          some (Except.error (AddNodeError.CyclicRelation (nodeAt g p).value)) := by
        simp [verifyIfExistsInParents]
      rw [hval] at h
      have h2 := Option.some.inj h
      have he : AddNodeError.CyclicRelation (nodeAt g p).value = e := by
        injection h2 with h3
      exact ⟨⟨(nodeAt g p).value, he.symm⟩, Relation.ReflTransGen.refl⟩
    · simp only [verifyIfExistsInParents, if_neg hpc] at h
      obtain ⟨r, hr, hre⟩ := seqTry_eq_error _ _ h
      obtain ⟨q, hq, hrq⟩ := List.mem_map.mp hr
      obtain ⟨hcyc, hreach⟩ := ih q c e (hrq.trans hre)
      exact ⟨hcyc, Relation.ReflTransGen.head hq hreach⟩

theorem verify_ok_not_reach (g : DepGraph α) :
    ∀ (fuel p c : Nat),
      verifyIfExistsInParents g fuel p c = some (Except.ok ()) →
      ¬ Relation.ReflTransGen (parentStep g) p c := by
  intro fuel
  induction fuel with
  | zero => intro p c h; simp [verifyIfExistsInParents] at h
  | succ f ih =>
    intro p c h hreach
    by_cases hpc : p = c
    · subst hpc
      simp [verifyIfExistsInParents] at h
    · simp only [verifyIfExistsInParents, if_neg hpc] at h
      rcases Relation.ReflTransGen.cases_head hreach with heq | ⟨q, hstep, hrest⟩
      · exact hpc heq
      · have hall := (seqTry_eq_ok_iff _).mp h
        have hq : verifyIfExistsInParents g f q c = some (Except.ok ()) :=
          hall _ (List.mem_map.mpr ⟨q, hstep, rfl⟩)
        exact ih q c hq hrest

theorem verify_none_chain (g : DepGraph α) :
    ∀ (fuel p c : Nat),
      verifyIfExistsInParents g fuel p c = none →
      ∃ l : List Nat, l.length = fuel ∧ List.Chain (parentStep g) p l := by
  intro fuel
  induction fuel with
  | zero => intro p c _; exact ⟨[], rfl, List.Chain.nil⟩
  | succ f ih =>
    intro p c h
    by_cases hpc : p = c
    · subst hpc
      simp [verifyIfExistsInParents] at h
    · simp only [verifyIfExistsInParents, if_neg hpc] at h
      obtain ⟨r, hr, hre⟩ := seqTry_eq_none _ h
      obtain ⟨q, hq, hrq⟩ := List.mem_map.mp hr
      obtain ⟨l, hlen, hch⟩ := ih q c (hrq.trans hre)
      exact ⟨q :: l, by simp [hlen], List.Chain.cons hq hch⟩

theorem verify_ok_ne (g : DepGraph α) (fuel p c : Nat) :
    verifyIfExistsInParents g fuel p c = some (Except.ok ()) → p ≠ c := by
  intro h hpc
  subst hpc
  cases fuel with
  | zero => simp [verifyIfExistsInParents] at h
  | succ f => simp [verifyIfExistsInParents] at h

end VerifyLemmas

/-! A parents-chain longer than the registry must revisit a node, giving a
cycle: the pigeonhole argument behind termination of the ancestry walk. -/

section ChainLemmas

theorem chain_mem_target {β : Type} {R : β → β → Prop} :
    ∀ (l : List β) (a : β), List.Chain R a l → ∀ x ∈ l, ∃ y, R y x := by
  intro l
  induction l with
  | nil => intro a _ x hx; simp at hx
  | cons b t ih =>
    intro a hch x hx
    rw [List.chain_cons] at hch
    rcases List.mem_cons.mp hx with rfl | hxt
    · exact ⟨a, hch.1⟩
    · exact ih b hch.2 x hxt

theorem chain_concat_transGen {β : Type} {R : β → β → Prop} :
    ∀ (l : List β) (a b : β), List.Chain R a (l ++ [b]) → Relation.TransGen R a b := by
  intro l
  induction l with
  | nil =>
    intro a b hch
    rw [List.nil_append, List.chain_cons] at hch
    exact Relation.TransGen.single hch.1
  | cons q t ih =>
    intro a b hch
    rw [List.cons_append, List.chain_cons] at hch
    exact Relation.TransGen.head hch.1 (ih q b hch.2)

theorem not_nodup_split {β : Type} :
    ∀ (l : List β), ¬ l.Nodup → ∃ (x : β) (l1 l2 l3 : List β), l = l1 ++ (x :: (l2 ++ (x :: l3))) := by
  intro l
  induction l with
  | nil => intro h; exact absurd List.nodup_nil h
  | cons a t ih =>
    intro h
    by_cases ha : a ∈ t
    · obtain ⟨s, u, rfl⟩ := List.append_of_mem ha
      exact ⟨a, [], s, u, rfl⟩
    · have ht : ¬ t.Nodup := fun hn => h (List.nodup_cons.mpr ⟨ha, hn⟩)
      obtain ⟨x, l1, l2, l3, rfl⟩ := ih ht
      exact ⟨x, a :: l1, l2, l3, rfl⟩

theorem nodup_bounded_length (l : List Nat) (n : Nat) (hb : ∀ x ∈ l, x < n)
    (hn : l.Nodup) : l.length ≤ n := by
  have h1 : l.toFinset.card = l.length := List.toFinset_card_of_nodup hn
  have h2 : l.toFinset ⊆ Finset.range n := by
    intro x hx
    exact Finset.mem_range.mpr (hb x (List.mem_toFinset.mp hx))
  have := Finset.card_le_card h2
  rw [h1, Finset.card_range] at this
  exact this

theorem longChain_cycle {R : Nat → Nat → Prop} {n : Nat}
    (hb : ∀ x y, R x y → y < n) {p : Nat} {l : List Nat}
    (hch : List.Chain R p l) (hlen : n + 1 ≤ l.length) :
    ∃ x, Relation.TransGen R x x := by
  have hmem : ∀ x ∈ l, x < n := by
    intro x hx
    obtain ⟨z, hz⟩ := chain_mem_target l p hch x hx
    exact hb z x hz
  have hnd : ¬ l.Nodup := by
    intro hn
    have := nodup_bounded_length l n hmem hn
    omega
  obtain ⟨x, l1, l2, l3, rfl⟩ := not_nodup_split l hnd
  have h1 := (List.chain_split.mp hch).2
  have h2 := (List.chain_split.mp h1).1
  exact ⟨x, chain_concat_transGen l2 x x h2⟩

end ChainLemmas

/-! Termination of the ancestry walk on well-formed graphs. -/

section TerminationLemmas

variable {α : Type} [Inhabited α]

theorem parent_cycle_to_child_cycle {g : DepGraph α} (hwf : WF g) {x : Nat}
    (hx : Relation.TransGen (parentStep g) x x) : Relation.TransGen (childStep g) x x := by
  have h1 : Relation.TransGen (Function.swap (childStep g)) x x :=
    Relation.TransGen.mono (fun a b hab => (hwf.conv a b).mp hab) hx
  exact Relation.transGen_swap.mp h1

theorem verify_not_none {g : DepGraph α} (hwf : WF g) (p c : Nat) :
    verifyIfExistsInParents g (g.nodes.length + 1) p c ≠ none := by
  intro h
  obtain ⟨l, hlen, hch⟩ := verify_none_chain g _ p c h
  obtain ⟨x, hx⟩ :=
    longChain_cycle (n := g.nodes.length)
      (fun a b hab => hwf.boundsParent a b hab) hch (by omega)
  exact hwf.acyc x (parent_cycle_to_child_cycle hwf hx)

end TerminationLemmas

/-! Adding a single edge to an acyclic relation whose converse cannot reach
back keeps it acyclic. -/

section ExtensionLemmas

theorem rt_extend_decompose {β : Type} {r : β → β → Prop} {p c : β} (a b : β)
    (hab : Relation.ReflTransGen (fun i j => r i j ∨ (i = p ∧ j = c)) a b) :
    Relation.ReflTransGen r a b ∨
      (Relation.ReflTransGen r a p ∧ Relation.ReflTransGen r c b) := by
  induction hab using Relation.ReflTransGen.head_induction_on with
  | refl => exact Or.inl Relation.ReflTransGen.refl
  | head hstep hrest ih =>
    rcases hstep with hr | ⟨hp, hc⟩
    · rcases ih with hxb | ⟨hxp, hcb⟩
      · exact Or.inl (Relation.ReflTransGen.head hr hxb)
      · exact Or.inr ⟨Relation.ReflTransGen.head hr hxp, hcb⟩
    · subst hp
      subst hc
      rcases ih with hcb | ⟨_, hcb⟩
      · exact Or.inr ⟨Relation.ReflTransGen.refl, hcb⟩
      · exact Or.inr ⟨Relation.ReflTransGen.refl, hcb⟩

theorem acyclic_extend {β : Type} {r : β → β → Prop} {p c : β}
    (hacyc : ∀ x, ¬ Relation.TransGen r x x)
    (hnr : ¬ Relation.ReflTransGen r c p) :
    ∀ x, ¬ Relation.TransGen (fun i j => r i j ∨ (i = p ∧ j = c)) x x := by
  intro x hx
  obtain ⟨y, hstep, hrest⟩ := Relation.TransGen.head'_iff.mp hx
  rcases hstep with hr | ⟨hxp, hyc⟩
  · rcases rt_extend_decompose y x hrest with hyx | ⟨hyp, hcx⟩
    · exact hacyc x (Relation.TransGen.head' hr hyx)
    · exact hnr (hcx.trans (Relation.ReflTransGen.head hr hyp))
  · subst hxp
    subst hyc
    rcases rt_extend_decompose _ _ hrest with hcp | ⟨hcp, _⟩
    · exact hnr hcp
    · exact hnr hcp

end ExtensionLemmas

/-! Shape of the three possible outcomes of `add_edge`. -/

section AddEdgeShape

variable {α : Type} [DecidableEq α] [Inhabited α]

theorem addEdge_error_state (g : DepGraph α) (p c : Nat) (e : AddNodeError α)
    (g' : DepGraph α) (hh : addEdge g p c = some (Except.error e, g')) : g' = g := by
  unfold addEdge at hh
  cases h : addEdgeCheck g p c with
  | none => rw [h] at hh; simp at hh
  | some r =>
    rw [h] at hh
    cases r with
    | error e2 =>
      simp only [Option.some.injEq, Prod.mk.injEq] at hh
      exact hh.2.symm
    | ok u =>
      cases u
      unfold addEdgeApply at hh
      by_cases hv : (nodeAt g p).value = (nodeAt g c).value
      · rw [if_pos hv] at hh
        simp only [Option.some.injEq, Prod.mk.injEq] at hh
        exact hh.2.symm
      · rw [if_neg hv] at hh
        simp at hh

theorem addEdge_ok_state (g : DepGraph α) (p c : Nat) (u : Unit) (g' : DepGraph α)
    (hh : addEdge g p c = some (Except.ok u, g')) :
    addEdgeCheck g p c = some (Except.ok ()) ∧
      (nodeAt g p).value ≠ (nodeAt g c).value ∧ g' = pushEdge g p c ∧ p ≠ c := by
  unfold addEdge at hh
  cases h : addEdgeCheck g p c with
  | none => rw [h] at hh; simp at hh
  | some r =>
    rw [h] at hh
    cases r with
    | error e2 => simp at hh
    | ok u2 =>
      cases u2
      unfold addEdgeApply at hh
      by_cases hv : (nodeAt g p).value = (nodeAt g c).value
      · rw [if_pos hv] at hh
        simp at hh
      · rw [if_neg hv] at hh
        simp only [Option.some.injEq, Prod.mk.injEq] at hh
        exact ⟨rfl, hv, hh.2.symm, verify_ok_ne g _ p c h⟩

theorem addEdge_ne_none {g : DepGraph α} (hwf : WF g) (p c : Nat) :
    addEdge g p c ≠ none := by
  unfold addEdge
  cases h : addEdgeCheck g p c with
  | none => exact absurd h (verify_not_none hwf p c)
  | some r =>
    cases r with
    | error e => simp
    | ok u => simp

end AddEdgeShape

/-! Values are untouched by edge insertion. -/

section ValuesLemmas

variable {α : Type} [Inhabited α]

theorem getD_map {β γ : Type} (f : β → γ) :
    ∀ (l : List β) (i : Nat) (d : β), (l.map f).getD i (f d) = f (l.getD i d)
  | [], i, _ => by cases i <;> rfl
  | _ :: _, 0, _ => rfl
  | _ :: t, i + 1, d => getD_map f t i d

theorem map_set_comm {β γ : Type} (f : β → γ) :
    ∀ (l : List β) (i : Nat) (a : β), (l.set i a).map f = (l.map f).set i (f a)
  | [], i, _ => by cases i <;> rfl
  | _ :: _, 0, _ => rfl
  | b :: t, i + 1, a => congrArg (f b :: ·) (map_set_comm f t i a)

theorem set_getD_eq {β : Type} :
    ∀ (l : List β) (i : Nat) (d : β), l.set i (l.getD i d) = l
  | [], i, _ => by cases i <;> rfl
  | _ :: _, 0, _ => rfl
  | b :: t, i + 1, d => congrArg (b :: ·) (set_getD_eq t i d)

theorem valuesOf_pushEdge (g : DepGraph α) {p c : Nat} (hne : p ≠ c) :
    valuesOf (pushEdge g p c) = valuesOf g := by
  unfold valuesOf
  rw [pushEdge_nodes g hne, map_set_comm, map_set_comm]
  have h1 : ({ nodeAt g p with childs := (nodeAt g p).childs ++ [c] } : Node α).value
      = (g.nodes.map Node.value).getD p ((default : Node α).value) := by
    show (nodeAt g p).value = _
    rw [getD_map]
    rfl
  have h2 : ({ nodeAt g c with parents := (nodeAt g c).parents ++ [p] } : Node α).value
      = (g.nodes.map Node.value).getD c ((default : Node α).value) := by
    show (nodeAt g c).value = _
    rw [getD_map]
    rfl
  rw [h1, set_getD_eq, h2, set_getD_eq]

end ValuesLemmas

/-! Well-formedness is an invariant of the public interface. -/

section WFPreservation

variable {α : Type} [DecidableEq α] [Inhabited α]

omit [Inhabited α] in
theorem fetchExisting_eq_none_iff (g : DepGraph α) (v : α) :
    fetchExisting g v = none ↔ v ∉ valuesOf g := by
  rw [fetchExisting, findValueIdx_eq_none_iff, valuesOf]
  constructor
  · intro h hv
    obtain ⟨n, hn, hnv⟩ := List.mem_map.mp hv
    exact h n hn hnv
  · intro h n hn hnv
    exact h (List.mem_map.mpr ⟨n, hn, hnv⟩)

omit [Inhabited α] in
theorem valuesOf_getOrAdd (g : DepGraph α) (v : α) :
    valuesOf (getOrAddNode g v).2 =
      if v ∈ valuesOf g then valuesOf g else valuesOf g ++ [v] := by
  unfold getOrAddNode
  cases h : fetchExisting g v with
  | some i =>
    have hv : v ∈ valuesOf g := by
      by_contra hv
      rw [← fetchExisting_eq_none_iff g v] at hv
      rw [h] at hv
      exact Option.noConfusion hv
    simp [hv]
  | none =>
    have hv : v ∉ valuesOf g := (fetchExisting_eq_none_iff g v).mp h
    simp only [if_neg hv]
    unfold valuesOf
    simp

omit [DecidableEq α] in
theorem childStep_empty (i j : Nat) : ¬ childStep (⟨[]⟩ : DepGraph α) i j := by
  intro h
  rw [childStep, nodeAt_default ⟨[]⟩ i (by simp), default_node_childs] at h
  simp at h

omit [DecidableEq α] in
theorem parentStep_empty (i j : Nat) : ¬ parentStep (⟨[]⟩ : DepGraph α) i j := by
  intro h
  rw [parentStep, nodeAt_default ⟨[]⟩ i (by simp), default_node_parents] at h
  simp at h

omit [DecidableEq α] in
theorem wf_empty : WF (⟨[]⟩ : DepGraph α) := by
  constructor
  · intro i j h
    exact absurd h (childStep_empty i j)
  · intro i j h
    exact absurd h (parentStep_empty i j)
  · intro i j
    constructor
    · intro h
      exact absurd h (parentStep_empty i j)
    · intro h
      exact absurd h (childStep_empty j i)
  · intro i h
    obtain ⟨y, hstep, _⟩ := Relation.TransGen.head'_iff.mp h
    exact childStep_empty i y hstep
  · simp [valuesOf]

theorem wf_getOrAdd {g : DepGraph α} (hwf : WF g) (v : α) : WF (getOrAddNode g v).2 := by
  unfold getOrAddNode
  cases h : fetchExisting g v with
  | some i => exact hwf
  | none =>
    set x : Node α := { value := v, childs := [], parents := [] } with hx
    have hcs := childStep_append_iff g x rfl
    have hps := parentStep_append_iff g x rfl
    have hlen : (⟨g.nodes ++ [x]⟩ : DepGraph α).nodes.length = g.nodes.length + 1 := by
      simp
    constructor
    · intro i j hstep
      rw [hlen]
      have := hwf.boundsChild i j ((hcs i j).mp hstep)
      omega
    · intro i j hstep
      rw [hlen]
      have := hwf.boundsParent i j ((hps i j).mp hstep)
      omega
    · intro i j
      rw [hcs j i, hps i j]
      exact hwf.conv i j
    · intro i hcyc
      exact hwf.acyc i ((transGen_congr hcs i i).mp hcyc)
    · have hv : v ∉ valuesOf g := (fetchExisting_eq_none_iff g v).mp h
      have : valuesOf (⟨g.nodes ++ [x]⟩ : DepGraph α) = valuesOf g ++ [v] := by
        unfold valuesOf
        simp [hx]
      rw [this]
      rw [List.nodup_append]
      exact ⟨hwf.valuesNodup, List.nodup_singleton v, by
        intro a ha hb
        rw [List.mem_singleton] at hb
        subst hb
        exact hv ha⟩

omit [DecidableEq α] in
theorem wf_pushEdge {g : DepGraph α} (hwf : WF g) {p c : Nat}
    (hp : p < g.nodes.length) (hc : c < g.nodes.length) (hne : p ≠ c)
    (hnreach : ¬ Relation.ReflTransGen (parentStep g) p c) : WF (pushEdge g p c) := by
  have hcs := childStep_pushEdge_iff g hp hne
  have hps := parentStep_pushEdge_iff g hc hne
  have hnr' : ¬ Relation.ReflTransGen (childStep g) c p := by
    intro hcp
    apply hnreach
    have h1 : Relation.ReflTransGen (Function.swap (childStep g)) p c :=
      Relation.reflTransGen_swap.mpr hcp
    exact Relation.ReflTransGen.mono (fun a b hab => (hwf.conv a b).mpr hab) h1
  constructor
  · intro i j hstep
    rw [length_pushEdge]
    rcases (hcs i j).mp hstep with hold | ⟨_, rfl⟩
    · exact hwf.boundsChild i j hold
    · exact hc
  · intro i j hstep
    rw [length_pushEdge]
    rcases (hps i j).mp hstep with hold | ⟨_, rfl⟩
    · exact hwf.boundsParent i j hold
    · exact hp
  · intro i j
    rw [hcs j i, hps i j]
    constructor
    · intro hh
      rcases hh with hold | ⟨h1, h2⟩
      · exact Or.inl ((hwf.conv i j).mp hold)
      · exact Or.inr ⟨h2, h1⟩
    · intro hh
      rcases hh with hold | ⟨h1, h2⟩
      · exact Or.inl ((hwf.conv i j).mpr hold)
      · exact Or.inr ⟨h2, h1⟩
  · intro i hcyc
    exact acyclic_extend hwf.acyc hnr' i ((transGen_congr hcs i i).mp hcyc)
  · rw [valuesOf_pushEdge g hne]
    exact hwf.valuesNodup

theorem wf_applyOp {g : DepGraph α} (hwf : WF g) (op : Op α) : WF (applyOp g op) := by
  cases op with
  | getOrAdd v => exact wf_getOrAdd hwf v
  | addEdge p c =>
    simp only [applyOp]
    by_cases hguard : p < g.nodes.length ∧ c < g.nodes.length
    · rw [if_pos hguard]
      cases h : addEdge g p c with
      | none => exact hwf
      | some r =>
        obtain ⟨res, g'⟩ := r
        cases res with
        | error e =>
          have := addEdge_error_state g p c e g' h
          subst this
          exact hwf
        | ok u =>
          obtain ⟨hcheck, _, hg', hne⟩ := addEdge_ok_state g p c u g' h
          subst hg'
          have hnreach : ¬ Relation.ReflTransGen (parentStep g) p c :=
            verify_ok_not_reach g _ p c hcheck
          exact wf_pushEdge hwf hguard.1 hguard.2 hne hnreach
    · rw [if_neg hguard]
      exact hwf

theorem wf_foldl : ∀ (ops : List (Op α)) (g : DepGraph α), WF g →
    WF (ops.foldl applyOp g) := by
  intro ops
  induction ops with
  | nil => intro g hwf; exact hwf
  | cons op rest ih => intro g hwf; exact ih _ (wf_applyOp hwf op)

theorem wf_execOps (ops : List (Op α)) : WF (execOps ops) :=
  wf_foldl ops _ wf_empty

end WFPreservation

/-! Distinct registry entries of a well-formed graph carry distinct values. -/

section ValueDistinct

variable {α : Type} [Inhabited α]

theorem getD_mem {β : Type} :
    ∀ (l : List β) (i : Nat) (d : β), i < l.length → l.getD i d ∈ l
  | [], _, _, h => absurd h (by simp)
  | a :: t, 0, _, _ => List.mem_cons_self a t
  | a :: t, i + 1, d, h => List.mem_cons_of_mem a (getD_mem t i d (by simpa using h))

theorem nodup_getD_inj {β : Type} :
    ∀ (l : List β), l.Nodup → ∀ (d : β) (i j : Nat), i < l.length → j < l.length →
      l.getD i d = l.getD j d → i = j := by
  intro l
  induction l with
  | nil => intro _ d i j hi _ _; simp at hi
  | cons a t ih =>
    intro hn d i j hi hj heq
    obtain ⟨ha, hn2⟩ := List.nodup_cons.mp hn
    cases i with
    | zero =>
      cases j with
      | zero => rfl
      | succ m =>
        exfalso
        apply ha
        rw [show (a :: t).getD 0 d = a from rfl] at heq
        rw [show (a :: t).getD (m + 1) d = t.getD m d from rfl] at heq
        rw [heq]
        exact getD_mem t m d (by simpa using hj)
    | succ n =>
      cases j with
      | zero =>
        exfalso
        apply ha
        rw [show (a :: t).getD 0 d = a from rfl] at heq
        rw [show (a :: t).getD (n + 1) d = t.getD n d from rfl] at heq
        rw [← heq]
        exact getD_mem t n d (by simpa using hi)
      | succ m =>
        have := ih hn2 d n m (by simpa using hi) (by simpa using hj) heq
        omega

theorem values_distinct {g : DepGraph α} (hwf : WF g) {p c : Nat}
    (hp : p < g.nodes.length) (hc : c < g.nodes.length) (hne : p ≠ c) :
    (nodeAt g p).value ≠ (nodeAt g c).value := by
  intro hvv
  apply hne
  have hlen : (valuesOf g).length = g.nodes.length := by simp [valuesOf]
  apply nodup_getD_inj (valuesOf g) hwf.valuesNodup ((default : Node α).value) p c
    (by omega) (by omega)
  rw [valuesOf, getD_map, getD_map]
  exact hvv

end ValueDistinct

/-! Claim theorems. -/

section Claims

/-- C1: for two node handles of the same (well-formed, i.e. API-reachable)
graph that are not reference-identical, add_edge fails with CyclicRelation
exactly when the child is reference-identical to a node reachable from the
parent through the parents back-references; otherwise the cycle check
passes.  On failure the graph is returned unchanged. -/
theorem addEdge_cyclic_iff_ancestor {α : Type} [DecidableEq α] [Inhabited α]
    {g : DepGraph α} (hwf : WF g) (p c : Nat) (_hne : p ≠ c) :
    (∃ v, addEdge g p c = some (Except.error (AddNodeError.CyclicRelation v), g)) ↔
      Relation.ReflTransGen (parentStep g) p c := by
  constructor
  · rintro ⟨v, hv⟩
    unfold addEdge at hv
    cases h : addEdgeCheck g p c with
    | none => rw [h] at hv; simp at hv
    | some r =>
      rw [h] at hv
      cases r with
      | error e =>
        exact (verify_error_sound g _ p c e h).2
      | ok u =>
        cases u
        unfold addEdgeApply at hv
        by_cases hval : (nodeAt g p).value = (nodeAt g c).value
        · rw [if_pos hval] at hv
          simp at hv
        · rw [if_neg hval] at hv
          simp at hv
  · intro hreach
    cases h : addEdgeCheck g p c with
    | none => exact absurd h (verify_not_none hwf p c)
    | some r =>
      cases r with
      | ok u =>
        cases u
        exact absurd hreach (verify_ok_not_reach g _ p c h)
      | error e =>
        obtain ⟨⟨v, hev⟩, _⟩ := verify_error_sound g _ p c e h
        subst hev
        refine ⟨v, ?_⟩
        unfold addEdge
        rw [h]

/-- Witness for C1 at the concrete scenario named by the claim: three nodes
with edges A→B and B→C added through the API; add_edge(C, A) fails with
CyclicRelation and the graph is unchanged. -/
theorem addEdge_cyclic_iff_ancestor_witness :
    addEdge (execOps [Op.getOrAdd 10, Op.getOrAdd 20, Op.getOrAdd 30,
        Op.addEdge 0 1, Op.addEdge 1 2] : DepGraph Nat) 2 0 =
      some (Except.error (AddNodeError.CyclicRelation 10),
        execOps [Op.getOrAdd 10, Op.getOrAdd 20, Op.getOrAdd 30,
          Op.addEdge 0 1, Op.addEdge 1 2]) ∧
    (∃ v, addEdge (execOps [Op.getOrAdd 10, Op.getOrAdd 20, Op.getOrAdd 30,
        Op.addEdge 0 1, Op.addEdge 1 2] : DepGraph Nat) 2 0 =
      some (Except.error (AddNodeError.CyclicRelation v),
        execOps [Op.getOrAdd 10, Op.getOrAdd 20, Op.getOrAdd 30,
          Op.addEdge 0 1, Op.addEdge 1 2])) :=
  ⟨by decide,
    (addEdge_cyclic_iff_ancestor (wf_execOps _) 2 0 (by decide)).mpr
      (Relation.ReflTransGen.head (b := 1) (by decide)
        (Relation.ReflTransGen.head (b := 0) (by decide) Relation.ReflTransGen.refl))⟩

/-- C2: acyclicity is an invariant: after any sequence of get_or_add_node and
add_edge calls starting from the empty graph, no node reaches itself by
transitively following children edges. -/
theorem execOps_acyclic {α : Type} [DecidableEq α] [Inhabited α]
    (ops : List (Op α)) (i : Nat) :
    ¬ Relation.TransGen (childStep (execOps ops)) i i :=
  (wf_execOps ops).acyc i

/-- C3 counterexample: on the one-node graph produced by the API, the
self-edge add_edge(h, h) fails with CyclicRelation(7), not with SameNode(7)
as the claim states. -/
theorem selfEdge_sameNode_counterexample :
    addEdge (execOps [Op.getOrAdd 7] : DepGraph Nat) 0 0 =
      some (Except.error (AddNodeError.CyclicRelation 7), execOps [Op.getOrAdd 7]) ∧
    addEdge (execOps [Op.getOrAdd 7] : DepGraph Nat) 0 0 ≠
      some (Except.error (AddNodeError.SameNode 7), execOps [Op.getOrAdd 7]) :=
  ⟨by decide, by decide⟩

/-- C3 (amended): add_edge(h, h) on reference-identical handles always fails
and leaves the graph unchanged, but the error is CyclicRelation carrying the
node's value: the Arc::ptr_eq base case of the ancestry walk fires before the
SameNode check is reached. -/
theorem selfEdge_cyclicRelation {α : Type} [DecidableEq α] [Inhabited α]
    (g : DepGraph α) (h : Nat) :
    addEdge g h h =
      some (Except.error (AddNodeError.CyclicRelation (nodeAt g h).value), g) := by
  unfold addEdge addEdgeCheck
  have hv : verifyIfExistsInParents g (g.nodes.length + 1) h h =
      some (Except.error (AddNodeError.CyclicRelation (nodeAt g h).value)) := by
    simp [verifyIfExistsInParents]
  rw [hv]

/-- C5: add_edge is all-or-nothing: whenever it returns an error, the graph
(and hence every node's adjacency) is exactly as before the call. -/
theorem addEdge_error_frames {α : Type} [DecidableEq α] [Inhabited α]
    (g : DepGraph α) (p c : Nat) (e : AddNodeError α) (g' : DepGraph α)
    (hh : addEdge g p c = some (Except.error e, g')) : g' = g :=
  addEdge_error_state g p c e g' hh

/-- Witness for C5: a failing self-edge call on a concrete one-node graph
returns the unchanged registry. -/
theorem addEdge_error_frames_witness :
    addEdge (execOps [Op.getOrAdd 5] : DepGraph Nat) 0 0 =
      some (Except.error (AddNodeError.CyclicRelation 5), ⟨[⟨5, [], []⟩]⟩) ∧
    (⟨[⟨5, [], []⟩]⟩ : DepGraph Nat) = execOps [Op.getOrAdd 5] :=
  ⟨by decide,
    addEdge_error_frames (execOps [Op.getOrAdd 5]) 0 0 (AddNodeError.CyclicRelation 5)
      ⟨[⟨5, [], []⟩]⟩ (by decide)⟩

end Claims

section Claims2

/-- C6: a successful add_edge(parent, child) appends exactly one strong
reference to the child at the end of the parent's children list and exactly
one weak back-reference to the parent at the end of the child's parents list,
and changes nothing else: the registry length, the two nodes' other fields
(captured by the record updates) and every other node are unchanged. -/
theorem addEdge_ok_frames {α : Type} [DecidableEq α] [Inhabited α]
    (g : DepGraph α) (p c : Nat) (u : Unit) (g' : DepGraph α)
    (hp : p < g.nodes.length) (hc : c < g.nodes.length)
    (hh : addEdge g p c = some (Except.ok u, g')) :
    p ≠ c ∧
    g'.nodes.length = g.nodes.length ∧
    nodeAt g' p = { nodeAt g p with childs := (nodeAt g p).childs ++ [c] } ∧
    nodeAt g' c = { nodeAt g c with parents := (nodeAt g c).parents ++ [p] } ∧
    ∀ i, i ≠ p → i ≠ c → nodeAt g' i = nodeAt g i := by
  obtain ⟨_, _, hg', hne⟩ := addEdge_ok_state g p c u g' hh
  subst hg'
  exact ⟨hne, length_pushEdge g p c, nodeAt_pushEdge_parent g hp hne,
    nodeAt_pushEdge_child g hc hne, fun i hip hic => nodeAt_pushEdge_other g hne hip hic⟩

/-- Witness for C6 on the diamond scenario of the claim: four fresh nodes
with edges 1→2, 1→3, 2→4, 3→4 all added successfully; the per-node child and
parent counts are as the claim states, and the last insertion is an instance
of the frame theorem. -/
theorem addEdge_ok_frames_witness :
    (nodeAt (execOps [Op.getOrAdd 1, Op.getOrAdd 2, Op.getOrAdd 3, Op.getOrAdd 4,
        Op.addEdge 0 1, Op.addEdge 0 2, Op.addEdge 1 3, Op.addEdge 2 3] : DepGraph Nat)
        0).childs.length = 2 ∧
    (nodeAt (execOps [Op.getOrAdd 1, Op.getOrAdd 2, Op.getOrAdd 3, Op.getOrAdd 4,
        Op.addEdge 0 1, Op.addEdge 0 2, Op.addEdge 1 3, Op.addEdge 2 3] : DepGraph Nat)
        0).parents.length = 0 ∧
    (nodeAt (execOps [Op.getOrAdd 1, Op.getOrAdd 2, Op.getOrAdd 3, Op.getOrAdd 4,
        Op.addEdge 0 1, Op.addEdge 0 2, Op.addEdge 1 3, Op.addEdge 2 3] : DepGraph Nat)
        1).childs.length = 1 ∧
    (nodeAt (execOps [Op.getOrAdd 1, Op.getOrAdd 2, Op.getOrAdd 3, Op.getOrAdd 4,
        Op.addEdge 0 1, Op.addEdge 0 2, Op.addEdge 1 3, Op.addEdge 2 3] : DepGraph Nat)
        1).parents.length = 1 ∧
    (nodeAt (execOps [Op.getOrAdd 1, Op.getOrAdd 2, Op.getOrAdd 3, Op.getOrAdd 4,
        Op.addEdge 0 1, Op.addEdge 0 2, Op.addEdge 1 3, Op.addEdge 2 3] : DepGraph Nat)
        2).childs.length = 1 ∧
    (nodeAt (execOps [Op.getOrAdd 1, Op.getOrAdd 2, Op.getOrAdd 3, Op.getOrAdd 4,
        Op.addEdge 0 1, Op.addEdge 0 2, Op.addEdge 1 3, Op.addEdge 2 3] : DepGraph Nat)
        2).parents.length = 1 ∧
    (nodeAt (execOps [Op.getOrAdd 1, Op.getOrAdd 2, Op.getOrAdd 3, Op.getOrAdd 4,
        Op.addEdge 0 1, Op.addEdge 0 2, Op.addEdge 1 3, Op.addEdge 2 3] : DepGraph Nat)
        3).childs.length = 0 ∧
    (nodeAt (execOps [Op.getOrAdd 1, Op.getOrAdd 2, Op.getOrAdd 3, Op.getOrAdd 4,
        Op.addEdge 0 1, Op.addEdge 0 2, Op.addEdge 1 3, Op.addEdge 2 3] : DepGraph Nat)
        3).parents.length = 2 ∧
    (2 : Nat) ≠ 3 :=
  ⟨by decide, by decide, by decide, by decide, by decide, by decide, by decide, by decide,
    (addEdge_ok_frames
      (execOps [Op.getOrAdd 1, Op.getOrAdd 2, Op.getOrAdd 3, Op.getOrAdd 4,
        Op.addEdge 0 1, Op.addEdge 0 2, Op.addEdge 1 3] : DepGraph Nat) 2 3 ()
      (execOps [Op.getOrAdd 1, Op.getOrAdd 2, Op.getOrAdd 3, Op.getOrAdd 4,
        Op.addEdge 0 1, Op.addEdge 0 2, Op.addEdge 1 3, Op.addEdge 2 3] : DepGraph Nat)
      (by decide) (by decide) (by decide)).1⟩

/-- C10: the SameNode branch is unreachable through the public interface: on a
well-formed (API-reachable) graph, handles that are not reference-identical
carry unequal values, so add_edge never reports SameNode for them. -/
theorem sameNode_unreachable {α : Type} [DecidableEq α] [Inhabited α]
    {g : DepGraph α} (hwf : WF g) {p c : Nat}
    (hp : p < g.nodes.length) (hc : c < g.nodes.length) (hne : p ≠ c) :
    (nodeAt g p).value ≠ (nodeAt g c).value ∧
    ∀ (s : α) (g' : DepGraph α),
      addEdge g p c ≠ some (Except.error (AddNodeError.SameNode s), g') := by
  have hvals := values_distinct hwf hp hc hne
  refine ⟨hvals, ?_⟩
  intro s g' hh
  unfold addEdge at hh
  cases h : addEdgeCheck g p c with
  | none => rw [h] at hh; simp at hh
  | some r =>
    rw [h] at hh
    cases r with
    | error e =>
      obtain ⟨⟨v, hev⟩, _⟩ := verify_error_sound g _ p c e h
      subst hev
      simp at hh
    | ok u =>
      cases u
      unfold addEdgeApply at hh
      rw [if_neg hvals] at hh
      simp at hh

/-- Witness for C10: the two handles of a concrete two-node graph carry
distinct values. -/
theorem sameNode_unreachable_witness :
    (nodeAt (execOps [Op.getOrAdd 1, Op.getOrAdd 2] : DepGraph Nat) 0).value ≠
      (nodeAt (execOps [Op.getOrAdd 1, Op.getOrAdd 2] : DepGraph Nat) 1).value :=
  (sameNode_unreachable (wf_execOps _) (by decide) (by decide) (by decide)).1

end Claims2

/-! Lookup/insertion behaviour of get_or_add_node. -/

section C4Helpers

variable {α : Type} [DecidableEq α] [Inhabited α]

omit [Inhabited α] in
theorem getOrAdd_eq_found {g : DepGraph α} {v : α} {i : Nat}
    (h : fetchExisting g v = some i) : getOrAddNode g v = (i, g) := by
  unfold getOrAddNode
  rw [h]

omit [Inhabited α] in
theorem getOrAdd_eq_miss {g : DepGraph α} {v : α}
    (h : fetchExisting g v = none) :
    getOrAddNode g v =
      (g.nodes.length, ⟨g.nodes ++ [{ value := v, childs := [], parents := [] }]⟩) := by
  unfold getOrAddNode
  rw [h]

omit [Inhabited α] in
theorem fetch_after_getOrAdd (g : DepGraph α) (v : α) :
    fetchExisting (getOrAddNode g v).2 v = some (getOrAddNode g v).1 := by
  cases h : fetchExisting g v with
  | some i => rw [getOrAdd_eq_found h]; exact h
  | none =>
    rw [getOrAdd_eq_miss h]
    show findValueIdx v (g.nodes ++ [{ value := v, childs := [], parents := [] }]) =
      some g.nodes.length
    rw [findValueIdx_append_of_none v g.nodes _ h]
    simp

theorem execGetOrAdds_toFinset :
    ∀ (vs : List α) (g : DepGraph α),
      (valuesOf ((vs.map Op.getOrAdd).foldl applyOp g)).toFinset =
        (valuesOf g).toFinset ∪ vs.toFinset := by
  intro vs
  induction vs with
  | nil => intro g; simp
  | cons v rest ih =>
    intro g
    simp only [List.map_cons, List.foldl_cons]
    rw [ih]
    have happly : applyOp g (Op.getOrAdd v) = (getOrAddNode g v).2 := rfl
    rw [happly, valuesOf_getOrAdd]
    by_cases hv : v ∈ valuesOf g
    · rw [if_pos hv]
      ext a
      simp only [Finset.mem_union, List.mem_toFinset, List.toFinset_cons, Finset.mem_insert]
      constructor
      · rintro (h1 | h2)
        · exact Or.inl h1
        · exact Or.inr (Or.inr h2)
      · rintro (h1 | h2 | h3)
        · exact Or.inl h1
        · exact Or.inl (h2 ▸ hv)
        · exact Or.inr h3
    · rw [if_neg hv]
      ext a
      simp only [Finset.mem_union, List.mem_toFinset, List.toFinset_cons, Finset.mem_insert,
        List.mem_append, List.mem_singleton]
      tauto

end C4Helpers

section Claims3

/-- C4: get_or_add_node never creates two nodes with equal values: after any
call, looking the value up again finds the very same handle and a repeated
call returns that handle without touching the registry; a sequence of calls
inserting values leaves exactly one registry node per distinct value; and a
miss registers a fresh node with empty adjacency lists at the end of the
registry. -/
theorem getOrAdd_no_duplicates {α : Type} [DecidableEq α] [Inhabited α] :
    (∀ (g : DepGraph α) (v : α),
        fetchExisting (getOrAddNode g v).2 v = some (getOrAddNode g v).1 ∧
        getOrAddNode (getOrAddNode g v).2 v = ((getOrAddNode g v).1, (getOrAddNode g v).2)) ∧
    (∀ vs : List α, (execOps (vs.map Op.getOrAdd)).nodes.length = vs.toFinset.card) ∧
    (∀ (g : DepGraph α) (v : α), fetchExisting g v = none →
        (getOrAddNode g v).1 = g.nodes.length ∧
        (getOrAddNode g v).2.nodes =
          g.nodes ++ [{ value := v, childs := [], parents := [] }]) := by
  refine ⟨?_, ?_, ?_⟩
  · intro g v
    exact ⟨fetch_after_getOrAdd g v, getOrAdd_eq_found (fetch_after_getOrAdd g v)⟩
  · intro vs
    have h0 := execGetOrAdds_toFinset vs (⟨[]⟩ : DepGraph α)
    rw [show valuesOf (⟨[]⟩ : DepGraph α) = [] from rfl] at h0
    simp only [List.toFinset_nil, Finset.empty_union] at h0
    have h1 : (valuesOf (execOps (vs.map Op.getOrAdd))).toFinset = vs.toFinset := h0
    have h2 : (valuesOf (execOps (vs.map Op.getOrAdd))).Nodup :=
      (wf_execOps _).valuesNodup
    have h3 := List.toFinset_card_of_nodup h2
    rw [h1] at h3
    have h4 : (valuesOf (execOps (vs.map Op.getOrAdd))).length =
        (execOps (vs.map Op.getOrAdd)).nodes.length := by simp [valuesOf]
    omega
  · intro g v h
    rw [getOrAdd_eq_miss h]
    exact ⟨rfl, rfl⟩

/-- Witness for C4: inserting value 5 into the empty graph misses, registers
the fresh node at index 0 with empty adjacency lists. -/
theorem getOrAdd_no_duplicates_witness :
    fetchExisting (⟨[]⟩ : DepGraph Nat) 5 = none ∧
    (getOrAddNode (⟨[]⟩ : DepGraph Nat) 5).1 = (⟨[]⟩ : DepGraph Nat).nodes.length ∧
    (getOrAddNode (⟨[]⟩ : DepGraph Nat) 5).2.nodes =
      (⟨[]⟩ : DepGraph Nat).nodes ++ [{ value := 5, childs := [], parents := [] }] :=
  ⟨by decide, ((getOrAdd_no_duplicates (α := Nat)).2.2 ⟨[]⟩ 5 (by decide)).1,
    ((getOrAdd_no_duplicates (α := Nat)).2.2 ⟨[]⟩ 5 (by decide)).2⟩

end Claims3

section Claims4

/-- C9: parallel edges are not deduplicated: after a successful
add_edge(parent, child) on a well-formed graph, repeating the very same call
succeeds again and appends a second strong reference to the child and a
second weak back-reference to the parent. -/
theorem addEdge_duplicates {α : Type} [DecidableEq α] [Inhabited α]
    {g : DepGraph α} (hwf : WF g) {p c : Nat}
    (hp : p < g.nodes.length) (hc : c < g.nodes.length) (u : Unit)
    {g1 : DepGraph α} (hh : addEdge g p c = some (Except.ok u, g1)) :
    ∃ g2, addEdge g1 p c = some (Except.ok (), g2) ∧
      (nodeAt g2 p).childs = (nodeAt g p).childs ++ [c] ++ [c] ∧
      (nodeAt g2 c).parents = (nodeAt g c).parents ++ [p] ++ [p] := by
  obtain ⟨hcheck, hval, hg1, hne⟩ := addEdge_ok_state g p c u g1 hh
  subst hg1
  have hnreach : ¬ Relation.ReflTransGen (parentStep g) p c :=
    verify_ok_not_reach g _ p c hcheck
  have hwf1 : WF (pushEdge g p c) := wf_pushEdge hwf hp hc hne hnreach
  have hnreach1 : ¬ Relation.ReflTransGen (parentStep (pushEdge g p c)) p c := by
    intro hr
    have hiff := parentStep_pushEdge_iff g hc hne
    have h2 : Relation.ReflTransGen (fun i j => parentStep g i j ∨ (i = c ∧ j = p)) p c :=
      Relation.ReflTransGen.mono (fun a b hab => (hiff a b).mp hab) hr
    rcases rt_extend_decompose p c h2 with h3 | ⟨h3, _⟩
    · exact hnreach h3
    · exact hnreach h3
  have hchk1 : addEdgeCheck (pushEdge g p c) p c = some (Except.ok ()) := by
    cases h1 : addEdgeCheck (pushEdge g p c) p c with
    | none => exact absurd h1 (verify_not_none hwf1 p c)
    | some r =>
      cases r with
      | error e =>
        obtain ⟨_, hr⟩ := verify_error_sound _ _ p c e h1
        exact absurd hr hnreach1
      | ok u2 => cases u2; rfl
  have hvp : (nodeAt (pushEdge g p c) p).value = (nodeAt g p).value := by
    rw [nodeAt_pushEdge_parent g hp hne]
  have hvc : (nodeAt (pushEdge g p c) c).value = (nodeAt g c).value := by
    rw [nodeAt_pushEdge_child g hc hne]
  have hval1 : (nodeAt (pushEdge g p c) p).value ≠ (nodeAt (pushEdge g p c) c).value := by
    rw [hvp, hvc]; exact hval
  have hp1 : p < (pushEdge g p c).nodes.length := by rw [length_pushEdge]; exact hp
  have hc1 : c < (pushEdge g p c).nodes.length := by rw [length_pushEdge]; exact hc
  refine ⟨pushEdge (pushEdge g p c) p c, ?_, ?_, ?_⟩
  · unfold addEdge
    rw [hchk1]
    show some (addEdgeApply (pushEdge g p c) p c) = _
    unfold addEdgeApply
    rw [if_neg hval1]
  · rw [nodeAt_pushEdge_parent (pushEdge g p c) hp1 hne, nodeAt_pushEdge_parent g hp hne]
  · rw [nodeAt_pushEdge_child (pushEdge g p c) hc1 hne, nodeAt_pushEdge_child g hc hne]

/-- Witness for C9: two fresh nodes; the edge 0→1 is inserted twice and both
adjacency lists end with two copies. -/
theorem addEdge_duplicates_witness :
    addEdge (execOps [Op.getOrAdd 1, Op.getOrAdd 2] : DepGraph Nat) 0 1 =
      some (Except.ok (), execOps [Op.getOrAdd 1, Op.getOrAdd 2, Op.addEdge 0 1]) ∧
    (∃ g2, addEdge (execOps [Op.getOrAdd 1, Op.getOrAdd 2, Op.addEdge 0 1] : DepGraph Nat) 0 1 =
        some (Except.ok (), g2) ∧
      (nodeAt g2 0).childs =
        (nodeAt (execOps [Op.getOrAdd 1, Op.getOrAdd 2] : DepGraph Nat) 0).childs ++ [1] ++ [1] ∧
      (nodeAt g2 1).parents =
        (nodeAt (execOps [Op.getOrAdd 1, Op.getOrAdd 2] : DepGraph Nat) 1).parents ++ [0] ++ [0]) :=
  ⟨by decide,
    addEdge_duplicates (wf_execOps [Op.getOrAdd 1, Op.getOrAdd 2])
      (by decide) (by decide) () (by decide)⟩

end Claims4

section Claims5

theorem fetchExistingLocksAux_no_error {α : Type} [DecidableEq α]
    (locks : Nat → LockState) (v : α) :
    ∀ (l : List (Node α)) (i : Nat) (e : AddNodeError α),
      fetchExistingLocksAux locks v l i ≠ PanicOr.ret (Except.error e) := by
  intro l
  induction l with
  | nil => intro i e h; simp [fetchExistingLocksAux] at h
  | cons n rest ih =>
    intro i e h
    unfold fetchExistingLocksAux at h
    cases hl : locks i with
    | poisoned => rw [hl] at h; simp at h
    | ok =>
      rw [hl] at h
      by_cases hv : n.value = v
      · rw [if_pos hv] at h; simp at h
      · rw [if_neg hv] at h
        exact ih (i + 1) e h

/-- C7: contrary to the claim, get_or_add_node's registry scan cannot surface
a poisoned read lock as the RwLockPanic error value: fetch_existing reads
each node's lock with expect, so the poisoned case panics the thread
(PanicOr.panicked below, at the concrete one-node poisoned registry), and no
input whatsoever makes the scan return an error value. -/
theorem fetchExisting_poisoned_panics :
    fetchExistingLocks (⟨[⟨7, [], []⟩]⟩ : DepGraph Nat) (fun _ => LockState.poisoned) 7 =
      PanicOr.panicked ∧
    ∀ (g : DepGraph Nat) (locks : Nat → LockState) (v : Nat) (e : AddNodeError Nat),
      fetchExistingLocks g locks v ≠ PanicOr.ret (Except.error e) := by
  constructor
  · rfl
  · intro g locks v e
    exact fetchExistingLocksAux_no_error locks v g.nodes 0 e

/-- C8: the source holds no lock between add_edge's ancestry check and its
write-locked mutation, so the interleaving check(A,B); check(B,A);
apply(A,B); apply(B,A) of two concurrent calls on two fresh nodes passes
both checks, lets both write phases report success, and installs both edges,
leaving the two-cycle 0→1→0 that the claim rules out. -/
theorem concurrent_addEdge_both_succeed :
    addEdgeCheck raceStart 0 1 = some (Except.ok ()) ∧
    addEdgeCheck raceStart 1 0 = some (Except.ok ()) ∧
    (addEdgeApply raceStart 0 1).1 = Except.ok () ∧
    (addEdgeApply raceMid 1 0).1 = Except.ok () ∧
    childStep raceFinal 0 1 ∧
    childStep raceFinal 1 0 ∧
    Relation.TransGen (childStep raceFinal) 0 0 := by
  refine ⟨by decide, by decide, by decide, by decide, by decide, by decide, ?_⟩
  exact Relation.TransGen.head (b := 1) (by decide) (Relation.TransGen.single (by decide))

end Claims5
